import Mathlib

/-!
# Verification of the beasties critical-CSS engine

A shallow embedding, in Lean 4, of the core of the `beasties` repository
(`packages/beasties/src/css.js` and the webpack plugin's `pruneSource`
override), together with proofs about the embedded operations.

Third-party collaborators (the postcss CSS parser/stringifier and
postcss-media-query-parser) are out of scope of the sources; where the
repository code interacts with them we model the interaction point
abstractly (the sequence of stringifier builder invocations, the parsed
media-query tree), never the third-party internals.
-/

namespace Beasties

/-! ## String helpers modelling the JavaScript string operations used
by `css.js`. -/

/-- `jsStartsWith pat s`: the character list `pat` is an initial segment
of `s`.  Helper for `jsIncludes`. -/
def jsStartsWith : List Char → List Char → Bool
  | [], _ => true
  | _ :: _, [] => false
  | p :: ps, c :: cs => p == c && jsStartsWith ps cs

/-- Helper for `jsIncludes`: does `pat` occur in the character list? -/
def jsIncludesList (pat : List Char) : List Char → Bool
  | [] => jsStartsWith pat []
  | c :: cs => jsStartsWith pat (c :: cs) || jsIncludesList pat cs

/-- Model of JavaScript `s.includes(pat)`: substring occurrence. -/
def jsIncludes (s pat : String) : Bool :=
  jsIncludesList pat.toList s.toList

/-- Model of JavaScript `s.replace(pat, rep)` for a plain-string `pat`:
replaces the first occurrence of `pat` in `s` (if any) by `rep`.
(`String.splitOn` returns `[s]` when `pat` does not occur or is empty,
leaving `s` unchanged; the serializer only calls this with a nonempty
`pat`, the declaration's property text plus its `between` raw.) -/
def replaceFirst (s pat rep : String) : String :=
  match s.splitOn pat with
  | [] => s
  | [_] => s
  | x :: rest => x ++ rep ++ String.intercalate pat rest

/-- Model of JavaScript `result.replace(/\s\{$/, '{')`: if the string ends
with a single whitespace character followed by `{`, drop that whitespace. -/
def collapseBeforeBrace (s : String) : String :=
  match s.toList.reverse with
  | '{' :: w :: rest => if w.isWhitespace then ⟨('{' :: rest).reverse⟩ else s
  | _ => s

/-! ## Safe serializer (`serializeStylesheet`, css.js lines 39-81)

postcss's `stringify` (third-party) walks the AST and invokes the supplied
builder callback once per piece of output text, passing the piece, the
originating node (if any) and a position tag (`'start'`/`'end'`/absent).
We model the node data the callback inspects (`BNode`), one builder
invocation (`BEvent`), the callback itself (`serializeBuilder`) translated
from the source, and `serializeStylesheet` as the fold of the callback
over the invocation sequence, starting from the empty accumulator as in
the source (`let cssStr = ''`). -/

/-- The fields of a postcss node that the builder callback in
`serializeStylesheet` reads: `node.type`, `node.value`, `node.prop`,
`node.raws.between`, `node.selectors` (absent on non-rule nodes) and
`node.raws.semicolon`. -/
structure BNode where
  type : String
  value : String
  prop : String
  rawsBetween : String
  selectors : Option (List String)
  rawsSemicolon : Bool
deriving DecidableEq

/-- One invocation of the stringifier's builder callback: the text piece
`result`, the originating node (absent for separator pieces such as a
child's `before` raw), and the position tag (`some "start"`,
`some "end"`, or `none`). -/
structure BEvent where
  result : String
  node : Option BNode
  etype : Option String
deriving DecidableEq

/-- css.js lines 43-45: the guard that drops a declaration whose value
contains the literal sequence `</style>`. -/
def isDroppedDeclEvent (e : BEvent) : Bool :=
  match e.node with
  | some n => n.type == "decl" && jsIncludes n.value "</style>"
  | none => false

/-- The builder callback of `serializeStylesheet` (css.js lines 42-78),
acting on the accumulated output string `cssStr`. -/
def serializeBuilder (compress : Bool) (cssStr : String) (e : BEvent) : String :=
  -- if (node?.type === 'decl' && node.value.includes('</style>')) return
  if isDroppedDeclEvent e then cssStr
  -- if (!options.compress) { cssStr += result; return }
  else if !compress then cssStr ++ e.result
  -- if (node?.type === 'comment') return
  else if (match e.node with | some n => n.type == "comment" | none => false) then cssStr
  -- if (node?.type === 'decl') { const prefix = node.prop + node.raws.between;
  --   cssStr += result.replace(prefix, prefix.trim()); return }
  else if (match e.node with | some n => n.type == "decl" | none => false) then
    match e.node with
    | some n =>
      let declPre := n.prop ++ n.rawsBetween
      cssStr ++ replaceFirst e.result declPre declPre.trim
    | none => cssStr
  -- if (type === 'start') { ... }
  else if e.etype == some "start" then
    match e.node with
    | some n =>
      if n.type == "rule" && n.selectors.isSome then
        cssStr ++ String.intercalate "," (n.selectors.getD []) ++ "\x7b"
      else
        cssStr ++ collapseBeforeBrace e.result
    | none => cssStr ++ collapseBeforeBrace e.result
  else
    -- if (type === 'end' && result === '}' && node?.raws?.semicolon)
    --   cssStr = cssStr.slice(0, -1)
    -- cssStr += result.trim()
    let base :=
      if e.etype == some "end" && e.result == "\x7d"
          && (match e.node with | some n => n.rawsSemicolon | none => false) then
        cssStr.dropRight 1
      else cssStr
    base ++ e.result.trim

/-- `serializeStylesheet` (css.js lines 39-81): the stringifier drives the
builder over the AST; we take the builder-invocation sequence as the
input and fold the callback over it. -/
def serializeStylesheet (events : List BEvent) (compress : Bool) : String :=
  events.foldl (serializeBuilder compress) ""

/-- In compress mode, the text a (non-dropped) declaration event appends:
the declaration's rendered text with the whitespace inside its
`prop + between` prefix trimmed. -/
def declEmission (compress : Bool) (e : BEvent) : String :=
  if compress then
    match e.node with
    | some n => replaceFirst e.result (n.prop ++ n.rawsBetween) (n.prop ++ n.rawsBetween).trim
    | none => e.result
  else e.result

/-- An event originating from a declaration node. -/
def isDeclEvent (e : BEvent) : Bool :=
  match e.node with
  | some n => n.type == "decl"
  | none => false

/-! ## `splitFilter` and `filterSelectors` (css.js lines 174-202) -/

/-- The loop of `splitFilter`, keeping the enclosing arrays `a` and `b`
and the running `index` so the predicate can be passed all four
arguments, as in the source. -/
def splitFilterGo {α : Type} (a b : List α)
    (predicate : α → Nat → List α → List α → Bool) :
    Nat → List α → List α × List α
  | _, [] => ([], [])
  | index, x :: xs =>
    let rest := splitFilterGo a b predicate (index + 1) xs
    if predicate x index a b then (x :: rest.1, rest.2)
    else (rest.1, x :: rest.2)

/-- `splitFilter(a, b, predicate)` (css.js lines 174-186): like
`a.filter(predicate)` but also producing the complement list. -/
def splitFilter {α : Type} (a b : List α)
    (predicate : α → Nat → List α → List α → Bool) : List α × List α :=
  splitFilterGo a b predicate 0 a

/-- `filterSelectors(predicate)` (css.js lines 189-202), invoked on a rule:
subsets `this.selectors` and, if a mirror twin `this._other` is wired,
writes the complement onto the twin's selector list.  We pass the rule's
selector list and the twin's (when present) explicitly and return the
updated pair. -/
def filterSelectors (selectors : List String) (otherSelectors : Option (List String))
    (predicate : String → Bool) : List String × Option (List String) :=
  match otherSelectors with
  | some os =>
    let r := splitFilter selectors os (fun x _ _ _ => predicate x)
    (r.1, some r.2)
  | none => (selectors.filter predicate, none)

/-! ## The rule tree and the tree walks (css.js lines 118-170)

A postcss node as the walks see it: its `type` (`"rule"`, `"atrule"`,
`"decl"`, `"comment"`, `"root"`), its at-rule `name` (absent on
non-at-rules), its selector list and its child list (empty for childless
nodes, matching the truthiness test `rule.nodes?.length`).

The walks in css.js mutate the tree in place and also wire helper
references onto each visited rule (`rule._other`, `rule.filterSelectors`);
we model the walks as functions returning the updated tree, and model the
iterator as a state-passing function `σ → Node → σ × Option Bool` whose
second component is the JavaScript return value (`some false` removes the
rule, anything else keeps it).  The cross-tree `_other` back-pointer is
not represented inside `Node`; the rule-pair model for `markOnly` below
covers it. -/

inductive Node where
  | mk (type : String) (name : Option String) (selectors : List String)
      (nodes : List Node)

def Node.type : Node → String
  | .mk t _ _ _ => t

def Node.name : Node → Option String
  | .mk _ n _ _ => n

def Node.selectors : Node → List String
  | .mk _ _ s _ => s

def Node.nodes : Node → List Node
  | .mk _ _ _ ns => ns

/-- `hasNestedRules` (css.js lines 163-170): a node is recursed into iff
it has children, is not named `keyframes` or `-webkit-keyframes`, and
some child is a rule or at-rule. -/
def hasNestedRules (rule : Node) : Bool :=
  !rule.nodes.isEmpty
    && rule.name ≠ some "keyframes"
    && rule.name ≠ some "-webkit-keyframes"
    && rule.nodes.any (fun n => n.type == "rule" || n.type == "atrule")

mutual

/-- `walkStyleRules(node, iterator)` (css.js lines 124-133). -/
def walkStyleRules {σ : Type} (iterator : σ → Node → σ × Option Bool) (s : σ) :
    Node → σ × Node
  | .mk t nm sel ns =>
    let r := walkNodes iterator s ns
    (r.1, .mk t nm sel r.2)

/-- The `node.nodes.filter(...)` callback of `walkStyleRules`, run left to
right over the children: recurse into nested containers, then invoke the
iterator on the (already recursed) rule; keep it unless the iterator
returned `false`. -/
def walkNodes {σ : Type} (iterator : σ → Node → σ × Option Bool) (s : σ) :
    List Node → σ × List Node
  | [] => (s, [])
  | c :: cs =>
    let r1 := if hasNestedRules c then walkStyleRules iterator s c else (s, c)
    let r2 := iterator r1.1 r1.2
    let r3 := walkNodes iterator r2.1 cs
    (r3.1, if r2.2 ≠ some false then r1.2 :: r3.2 else r3.2)

end

/-- A JavaScript value that may be `null`, `undefined`, or a node: the
type of the second argument of `walkStyleRulesWithReverseMirror`. -/
inductive JsVal (α : Type) where
  | jsNull
  | jsUndefined
  | val (a : α)

def jsOfOption {α : Type} : Option α → JsVal α
  | some a => .val a
  | none => .jsUndefined

mutual

/-- `walkStyleRulesWithReverseMirror(node, node2, iterator)` (css.js
lines 142-159).  The source checks `node2 === null` and falls back to the
single-tree walk; a `node2` that is `undefined` fails that check and the
subsequent `node2.nodes` access throws a TypeError, modelled as
`.error ()`.  Otherwise the children of `node` are split by
`splitFilter`, the kept ones staying in `node` and the removed ones
replacing the children of `node2`. -/
def walkStyleRulesWithReverseMirror {σ : Type}
    (iterator : σ → Node → σ × Option Bool) (s : σ) :
    Node → JsVal Node → Except Unit (σ × Node × JsVal Node)
  | node, .jsNull =>
    -- if (node2 === null) return walkStyleRules(node, iterator)
    let r := walkStyleRules iterator s node
    .ok (r.1, r.2, .jsNull)
  | _, .jsUndefined =>
    -- `undefined === null` is false, and `node2.nodes` then throws
    .error ()
  | .mk t nm sel ns, .val (.mk t2 nm2 sel2 ns2) =>
    match walkMirrorNodes iterator s ns ns2 0 with
    | .error e => .error e
    | .ok r =>
      -- [node.nodes, node2.nodes] = splitFilter(node.nodes, node2.nodes, ...)
      .ok (r.1, .mk t nm sel r.2.1, .val (.mk t2 nm2 sel2 r.2.2))

/-- The `splitFilter` predicate of the mirror walk (css.js lines 149-157),
run left to right: `rule2 = rules2[index]`; recurse into nested
containers (passing `rule2`, which may be out of bounds and hence
`undefined`); then invoke the iterator on the (already recursed) rule.
The kept rules form the first output list, the removed ones the second;
both are drawn from the first tree's (recursed) children, exactly as
`splitFilter` pushes `a[index]`. -/
def walkMirrorNodes {σ : Type} (iterator : σ → Node → σ × Option Bool) (s : σ) :
    List Node → List Node → Nat → Except Unit (σ × List Node × List Node)
  | [], _, _ => .ok (s, [], [])
  | rule :: rest, rules2, index =>
    let rule2 : Option Node := rules2[index]?
    match (if hasNestedRules rule then
            match walkStyleRulesWithReverseMirror iterator s rule (jsOfOption rule2) with
            | .error e => .error e
            | .ok r => .ok (r.1, r.2.1)
          else .ok (s, rule) : Except Unit (σ × Node)) with
    | .error e => .error e
    | .ok r1 =>
      let r2 := iterator r1.1 r1.2
      match walkMirrorNodes iterator r2.1 rest rules2 (index + 1) with
      | .error e => .error e
      | .ok r3 =>
        if r2.2 ≠ some false then .ok (r3.1, r1.2 :: r3.2.1, r3.2.2)
        else .ok (r3.1, r3.2.1, r1.2 :: r3.2.2)

end

mutual

/-- All proper descendants of a node (the node itself excluded). -/
def allNodes : Node → List Node
  | .mk _ _ _ ns => allNodesList ns

/-- All nodes of a child list together with their descendants. -/
def allNodesList : List Node → List Node
  | [] => []
  | c :: cs => c :: (allNodes c ++ allNodesList cs)

end

/-! ## Media query validation (css.js lines 204-264)

`validateMediaQuery` parses the query with postcss-media-query-parser
(third-party) and then walks the resulting tree with an explicit stack.
We model the parsed tree (`MediaNode`: a node's `type`, `value` and child
list) and translate the walk; the claims are settled over parsed trees. -/

inductive MediaNode where
  | mk (type : String) (value : String) (nodes : List MediaNode)

def MediaNode.type : MediaNode → String
  | .mk t _ _ => t

def MediaNode.value : MediaNode → String
  | .mk _ v _ => v

def MediaNode.nodes : MediaNode → List MediaNode
  | .mk _ _ ns => ns

/-- `MEDIA_TYPES` (css.js line 204). -/
def MEDIA_TYPES : List String := ["all", "print", "screen", "speech"]

/-- `MEDIA_KEYWORDS` (css.js line 205). -/
def MEDIA_KEYWORDS : List String := ["and", "not", ","]

/-- `MEDIA_FEATURES` (css.js lines 206-219): the base feature names, each
also in a `min-` and a `max-` variant. -/
def MEDIA_FEATURES : List String :=
  (["width", "aspect-ratio", "color", "color-index", "grid", "height",
    "monochrome", "orientation", "resolution", "scan"]).flatMap
    (fun feature => [feature, "min-" ++ feature, "max-" ++ feature])

/-- `validateMediaType(node)` (css.js lines 221-232); the JavaScript
function returns `undefined` on node types other than the three it
checks, modelled as `none`. -/
def validateMediaType (node : MediaNode) : Option Bool :=
  if node.type == "media-type" then some (MEDIA_TYPES.contains node.value)
  else if node.type == "keyword" then some (MEDIA_KEYWORDS.contains node.value)
  else if node.type == "media-feature" then some (MEDIA_FEATURES.contains node.value)
  else none

/-- The `nodeTypes` set of `validateMediaQuery` (css.js line 247). -/
def nodeTypes : List String := ["media-type", "keyword", "media-feature"]

mutual

def MediaNode.size : MediaNode → Nat
  | .mk _ _ ns => 1 + MediaNode.sizeList ns

def MediaNode.sizeList : List MediaNode → Nat
  | [] => 0
  | n :: ns => n.size + MediaNode.sizeList ns

end

theorem MediaNode.sizeList_append (a b : List MediaNode) :
    MediaNode.sizeList (a ++ b) = MediaNode.sizeList a + MediaNode.sizeList b := by
  induction a with
  | nil => simp [MediaNode.sizeList]
  | cons n ns ih => simp [MediaNode.sizeList, ih]; omega

theorem MediaNode.sizeList_reverse (a : List MediaNode) :
    MediaNode.sizeList a.reverse = MediaNode.sizeList a := by
  induction a with
  | nil => rfl
  | cons n ns ih =>
    simp [List.reverse_cons, MediaNode.sizeList_append, MediaNode.sizeList, ih]
    omega

/-- The `while (stack.length > 0)` loop of `validateMediaQuery` (css.js
lines 249-263).  The JavaScript stack pops from the array's end and
pushes a node's children in order (so they are popped in reverse); we
keep the stack top at the list head, pushing `node.nodes.reverse`. -/
def validateStack : List MediaNode → Bool
  | [] => true
  | node :: rest =>
    -- if (nodeTypes.has(node.type) && !validateMediaType(node)) return false
    if nodeTypes.contains node.type && !(validateMediaType node == some true) then
      false
    else
      -- if (node.nodes) stack.push(...node.nodes)
      validateStack (node.nodes.reverse ++ rest)
termination_by stack => MediaNode.sizeList stack
decreasing_by
  cases n with
  | mk t v cs =>
    simp only [MediaNode.sizeList_append, MediaNode.sizeList_reverse,
      MediaNode.sizeList, MediaNode.size, MediaNode.nodes]
    omega

/-- `validateMediaQuery(query)` (css.js lines 243-264), over the parsed
media-query tree. -/
def validateMediaQuery (mediaTree : MediaNode) : Bool :=
  validateStack [mediaTree]

mutual

/-- A media-query node together with all its descendants. -/
def mediaAllNodes : MediaNode → List MediaNode
  | .mk t v ns => .mk t v ns :: mediaAllNodesList ns

def mediaAllNodesList : List MediaNode → List MediaNode
  | [] => []
  | n :: ns => mediaAllNodes n ++ mediaAllNodesList ns

end

/-- The allow-list predicate of the spec, phrased on a `(type, value)`
token: a media-type must be in `MEDIA_TYPES`, a keyword in
`MEDIA_KEYWORDS`, a media-feature in `MEDIA_FEATURES`; tokens of any
other type are unconstrained. -/
def pairAllowed (p : String × String) : Prop :=
  (p.1 = "media-type" → p.2 ∈ MEDIA_TYPES)
  ∧ (p.1 = "keyword" → p.2 ∈ MEDIA_KEYWORDS)
  ∧ (p.1 = "media-feature" → p.2 ∈ MEDIA_FEATURES)

instance (p : String × String) : Decidable (pairAllowed p) := by
  unfold pairAllowed; infer_instance

/-- The allow-list predicate on a node: only its `type`/`value` pair
matters. -/
def tokenAllowed (n : MediaNode) : Prop :=
  pairAllowed (n.type, n.value)

/-- The `(type, value)` pairs of the nodes `validateMediaQuery` actually
inspects: those whose type is a media-type, keyword or media-feature. -/
def relevantTokens (t : MediaNode) : List (String × String) :=
  ((mediaAllNodes t).filter fun n => nodeTypes.contains n.type).map
    fun n => (n.type, n.value)

/-! ## `markOnly` over a rule and its mirror twin (css.js lines 90-116)

`markOnly(predicate)` wraps an iterator so that instead of removing a
rule it annotates it (`$$remove`, `$$markedSelectors`).  The rule and its
`_other` twin are mutable objects; we model the pair of them as one
record (`RulePair`) and the fields `markOnly` touches (`selectors`,
`$$remove`, `$$markedSelectors`) on each side (`RuleM`).

The predicates beasties passes to `markOnly` read the rule, optionally
call `rule.filterSelectors(q)` (which mirrors the complement onto the
twin), and return a verdict; `PredSpec` models exactly that shape. -/

structure RuleM where
  selectors : List String
  remove : Bool
  markedSelectors : Option (List String)
deriving DecidableEq

structure RulePair where
  rule : RuleM
  other : Option RuleM
deriving DecidableEq

/-- The observable behaviour of a predicate handed to `markOnly`: an
optional `filterSelectors` call with selector predicate `filterPred`,
and the returned verdict (a function of the rule state the predicate
saw; `none` models a JavaScript `undefined` return). -/
structure PredSpec where
  filterPred : Option (String → Bool)
  verdict : RulePair → Option Bool

/-- The effect of `rule.filterSelectors(q)` (css.js lines 189-202) on the
rule/twin pair. -/
def runFilterSelectors (q : String → Bool) (pr : RulePair) : RulePair :=
  match pr.other with
  | some o =>
    let r := splitFilter pr.rule.selectors o.selectors (fun x _ _ _ => q x)
    { rule := { pr.rule with selectors := r.1 }
      other := some { o with selectors := r.2 } }
  | none =>
    { pr with rule := { pr.rule with selectors := pr.rule.selectors.filter q } }

/-- Running a predicate of shape `PredSpec` on the pair: perform its
`filterSelectors` call (if any) and produce its verdict. -/
def runPredicate (p : PredSpec) (pr : RulePair) : RulePair × Option Bool :=
  let pr1 :=
    match p.filterPred with
    | some q => runFilterSelectors q pr
    | none => pr
  (pr1, p.verdict pr)

/-- `markOnly(predicate)` applied to a rule (css.js lines 90-102).  The
returned `Option Bool` is the wrapper's own return value as seen by
`walkStyleRules` — the JavaScript arrow function has no `return`
statement, so it is always `undefined` (`none`). -/
def markOnly (p : PredSpec) (pr : RulePair) : RulePair × Option Bool :=
  -- const sel = rule.selectors
  let sel := pr.rule.selectors
  -- if (predicate(rule) === false) rule.$$remove = true
  let r := runPredicate p pr
  let pr2 :=
    if r.2 == some false then
      { r.1 with rule := { r.1.rule with remove := true } }
    else r.1
  -- rule.$$markedSelectors = rule.selectors
  let pr3 := { pr2 with rule := { pr2.rule with markedSelectors := some pr2.rule.selectors } }
  -- if (rule._other) rule._other.$$markedSelectors = rule._other.selectors
  let pr4 :=
    match pr3.other with
    | some o => { pr3 with other := some { o with markedSelectors := some o.selectors } }
    | none => pr3
  -- rule.selectors = sel
  ({ pr4 with rule := { pr4.rule with selectors := sel } }, none)

/-- `applyMarkedSelectors(rule)` (css.js lines 109-116) on the pair
model: move each side's `$$markedSelectors` (when present) into its
selector list. -/
def applyMarkedSelectors (pr : RulePair) : RulePair :=
  let rule1 :=
    match pr.rule.markedSelectors with
    | some ms => { pr.rule with selectors := ms }
    | none => pr.rule
  let other1 :=
    match pr.other with
    | some o =>
      some (match o.markedSelectors with
            | some ms => { o with selectors := ms }
            | none => o)
    | none => pr.other
  { rule := rule1, other := other1 }

/-! ## The webpack plugin's `pruneSource` override
(`BeastiesWebpackPlugin.pruneSource`, packages/beasties-webpack-plugin)

The compilation's asset store is modelled as a map from asset name to
content; `deleteAsset` and the `SourceMapSource` assignment become map
updates.  The base-class `pruneSource` (whose result the override
returns in the non-threshold branches) lives outside the sources under
verification and is abstracted as the boolean `superResult`. -/

def Assets : Type := String → Option String

def deleteAsset (assets : Assets) (name : String) : Assets :=
  fun k => if k = name then none else assets k

def setAsset (assets : Assets) (name content : String) : Assets :=
  fun k => if k = name then some content else assets k

/-- `BeastiesWebpackPlugin.pruneSource(style, before, sheetInverse)`:
`hasAsset` models `style.$$asset` being present, `assetName` is
`style.$$assetName`, `minimumExternalSize` the configured option
(`none` when unset), `sheetInverse` the serialized non-critical
partition.  Returns the updated asset store and the boolean the
override returns. -/
def pruneSource (superResult : Bool) (hasAsset : Bool) (assetName : String)
    (minimumExternalSize : Option Nat) (sheetInverse : String)
    (assets : Assets) : Assets × Bool :=
  -- const isStyleInlined = super.pruneSource(style, before, sheetInverse)
  let isStyleInlined := superResult
  if hasAsset then
    -- if (minSize && sheetInverse.length < minSize)
    let minSizeTruthy :=
      match minimumExternalSize with
      | some m => m ≠ 0 && sheetInverse.length < m
      | none => false
    if minSizeTruthy then
      -- this.compilation.deleteAsset(style.$$assetName); return true
      (deleteAsset assets assetName, true)
    else
      -- this.compilation.assets[style.$$assetName] = new SourceMapSource(sheetInverse, ...)
      (setAsset assets assetName sheetInverse, isStyleInlined)
  else
    -- warn: no corresponding webpack asset
    (assets, isStyleInlined)

/-! ## Stylesheet acquisition pipeline (C5) -/

/-- One external stylesheet reference, in document order. -/
structure StyleRef where
  href : String
  content : String

/-- Modelled from the spec: the stylesheet acquisition pipeline (spec
§4.4, §5) is not among the sources under verification (only its test
appears in the repository slice), so we model it from the spec's words:
every reference's retrieval is launched at time `0` — no retrieval waits
for an earlier one to finish before starting — so each reference `i`
completes at its own latency `lat i`.  `launchTimes` records the start
times of the retrievals, one per reference. -/
def launchTimes (refs : List StyleRef) : List Nat :=
  refs.map fun _ => 0

/-- Modelled from the spec: stable insertion of index `i` into a list of
indices sorted by completion time (`lat`). -/
def insertByLat (lat : Nat → Nat) (i : Nat) : List Nat → List Nat
  | [] => [i]
  | j :: js => if lat i < lat j then i :: j :: js else j :: insertByLat lat i js

/-- Modelled from the spec: the order in which the concurrently launched
retrievals complete — the reference indices `0, …, n-1` sorted by their
latency (ties resolved by original index, as each retrieval is launched
in document order at time `0`). -/
def completionOrder (lat : Nat → Nat) (n : Nat) : List Nat :=
  (List.range n).foldl (fun acc i => insertByLat lat i acc) []

/-- Modelled from the spec: as each retrieval completes it stores its
text in the slot of the reference's original document index. -/
def storeResults (refs : List StyleRef) (order : List Nat) : Nat → Option String :=
  order.foldl
    (fun slots i => fun j => if j = i then (refs.get? i).map StyleRef.content else slots j)
    (fun _ => none)

/-- Modelled from the spec: after every launched retrieval has settled,
the results are assembled strictly by original document order — slot
`0`, then slot `1`, and so on — regardless of completion order. -/
def assembleInlined (refs : List StyleRef) (lat : Nat → Nat) : List (Option String) :=
  (List.range refs.length).map (storeResults refs (completionOrder lat refs.length))

/-! ## Theorems -/

theorem serializeBuilder_dropped (compress : Bool) (e : BEvent)
    (h : isDroppedDeclEvent e = true) (css : String) :
    serializeBuilder compress css e = css := by
  simp [serializeBuilder, h]

theorem serializeStylesheet_foldl_filter (compress : Bool) :
    ∀ (events : List BEvent) (css : String),
      events.foldl (serializeBuilder compress) css
        = (events.filter fun e => !isDroppedDeclEvent e).foldl (serializeBuilder compress) css := by
  intro events
  induction events with
  | nil => intro css; rfl
  | cons e es ih =>
    intro css
    by_cases h : isDroppedDeclEvent e = true
    · rw [List.foldl_cons, serializeBuilder_dropped compress e h,
        List.filter_cons_of_neg (by simp [h]), ih]
    · have h' : isDroppedDeclEvent e = false := by
        revert h; cases isDroppedDeclEvent e <;> simp
      rw [List.foldl_cons, List.filter_cons_of_pos (by simp [h']), List.foldl_cons, ih]

/-- C1: for every builder-invocation sequence and both compression modes,
`serializeStylesheet` emits nothing for a declaration whose value contains
the literal sequence `</style>` — its output equals the output with those
declaration events removed, and the builder leaves the accumulated string
untouched on such an event (omitted, not escaped) — while every other
declaration event appends its declaration text. -/
theorem serializeStylesheet_drops_style_closing_declarations :
    ∀ (events : List BEvent) (compress : Bool),
      serializeStylesheet events compress
        = serializeStylesheet (events.filter fun e => !isDroppedDeclEvent e) compress
      ∧ (∀ e, isDroppedDeclEvent e = true →
          ∀ css, serializeBuilder compress css e = css)
      ∧ (∀ e, isDeclEvent e = true → isDroppedDeclEvent e = false →
          ∀ css, serializeBuilder compress css e = css ++ declEmission compress e) := by
  intro events compress
  refine ⟨serializeStylesheet_foldl_filter compress events "", ?_, ?_⟩
  · intro e h css
    exact serializeBuilder_dropped compress e h css
  · intro e hdecl hkept css
    match he : e.node with
    | none => simp [isDeclEvent, he] at hdecl
    | some n =>
      have hn : (n.type == "decl") = true := by
        simpa [isDeclEvent, he] using hdecl
      have hcomment : (n.type == "comment") = false := by
        have := of_decide_eq_true hn
        simp [this]
      cases compress with
      | false => simp [serializeBuilder, hkept, declEmission]
      | true => simp [serializeBuilder, hkept, he, hn, hcomment, declEmission]

def evDropBad : BEvent :=
  { result := "color: red</style><script>alert(1)</script>;"
    node := some { type := "decl", value := "red</style><script>alert(1)</script>"
                   prop := "color", rawsBetween := ": ", selectors := none
                   rawsSemicolon := false }
    etype := none }

def evDropGood : BEvent :=
  { result := "color: red;"
    node := some { type := "decl", value := "red", prop := "color"
                   rawsBetween := ": ", selectors := none, rawsSemicolon := false }
    etype := none }

/-- Witness for C1: a concrete declaration event whose value contains
`</style>` appends nothing, while an ordinary declaration event appends
its text. -/
theorem serializeStylesheet_drops_style_closing_declarations_witness :
    serializeBuilder false "h1\x7b" evDropBad = "h1\x7b"
    ∧ serializeBuilder false "h1\x7b" evDropGood = "h1\x7b" ++ "color: red;" :=
  ⟨(serializeStylesheet_drops_style_closing_declarations [] false).2.1 evDropBad
      (by decide) "h1\x7b",
   (serializeStylesheet_drops_style_closing_declarations [] false).2.2 evDropGood
      (by decide) (by decide) "h1\x7b"⟩

theorem splitFilterGo_fst {α : Type} (a b : List α)
    (p : α → Nat → List α → List α → Bool) :
    ∀ (l : List α) (i : Nat),
      (splitFilterGo a b p i l).1
        = ((l.enumFrom i).filter fun z => p z.2 z.1 a b).map Prod.snd := by
  intro l
  induction l with
  | nil => intro i; rfl
  | cons x xs ih =>
    intro i
    by_cases h : p x i a b
    · simp [splitFilterGo, List.enumFrom, h, ih]
    · simp [splitFilterGo, List.enumFrom, h, ih]

theorem splitFilterGo_snd {α : Type} (a b : List α)
    (p : α → Nat → List α → List α → Bool) :
    ∀ (l : List α) (i : Nat),
      (splitFilterGo a b p i l).2
        = ((l.enumFrom i).filter fun z => !p z.2 z.1 a b).map Prod.snd := by
  intro l
  induction l with
  | nil => intro i; rfl
  | cons x xs ih =>
    intro i
    by_cases h : p x i a b
    · simp [splitFilterGo, List.enumFrom, h, ih]
    · simp [splitFilterGo, List.enumFrom, h, ih]

theorem splitFilterGo_sublist_fst {α : Type} (a b : List α)
    (p : α → Nat → List α → List α → Bool) :
    ∀ (l : List α) (i : Nat), (splitFilterGo a b p i l).1.Sublist l := by
  intro l
  induction l with
  | nil => intro i; simp [splitFilterGo]
  | cons x xs ih =>
    intro i
    by_cases h : p x i a b
    · simpa [splitFilterGo, h] using (ih (i + 1)).cons₂ x
    · simpa [splitFilterGo, h] using (ih (i + 1)).cons x

theorem splitFilterGo_sublist_snd {α : Type} (a b : List α)
    (p : α → Nat → List α → List α → Bool) :
    ∀ (l : List α) (i : Nat), (splitFilterGo a b p i l).2.Sublist l := by
  intro l
  induction l with
  | nil => intro i; simp [splitFilterGo]
  | cons x xs ih =>
    intro i
    by_cases h : p x i a b
    · simpa [splitFilterGo, h] using (ih (i + 1)).cons x
    · simpa [splitFilterGo, h] using (ih (i + 1)).cons₂ x

theorem splitFilterGo_count {α : Type} [DecidableEq α] (a b : List α)
    (p : α → Nat → List α → List α → Bool) :
    ∀ (l : List α) (i : Nat) (x : α),
      (splitFilterGo a b p i l).1.count x + (splitFilterGo a b p i l).2.count x
        = l.count x := by
  intro l
  induction l with
  | nil => intro i x; rfl
  | cons y ys ih =>
    intro i x
    by_cases h : p y i a b
    · simp only [splitFilterGo, h, if_pos, List.count_cons]
      have := ih (i + 1) x
      split <;> omega
    · simp only [splitFilterGo, h, if_neg, Bool.false_eq_true, not_false_eq_true,
        List.count_cons]
      have := ih (i + 1) x
      split <;> omega

theorem enumFrom_filter_map_snd {α : Type} (q : α → Bool) :
    ∀ (l : List α) (i : Nat),
      ((l.enumFrom i).filter fun z => q z.2).map Prod.snd = l.filter q := by
  intro l
  induction l with
  | nil => intro i; rfl
  | cons x xs ih =>
    intro i
    by_cases h : q x
    · simp [List.enumFrom, h, ih]
    · simp [List.enumFrom, h, ih]

/-- C2: `splitFilter(a, b, p)` partitions `a`: the first output holds
exactly the elements (with their positions) where the predicate is true,
the second the rest, each output preserves the relative order of `a`
(sublists), and no element is lost or duplicated (counts add up).
Consequently `filterSelectors`, splitting a rule's selector list against
its mirror twin, produces the kept selectors and their exact complement:
the two outputs concatenate to a permutation of the original selector
list, with each selector in exactly one side. -/
theorem splitFilter_partitions_selectors :
    (∀ {α : Type} [DecidableEq α] (a b : List α)
        (p : α → Nat → List α → List α → Bool),
      (splitFilter a b p).1
          = ((a.enumFrom 0).filter fun z => p z.2 z.1 a b).map Prod.snd
      ∧ (splitFilter a b p).2
          = ((a.enumFrom 0).filter fun z => !p z.2 z.1 a b).map Prod.snd
      ∧ (splitFilter a b p).1.Sublist a
      ∧ (splitFilter a b p).2.Sublist a
      ∧ ∀ x, (splitFilter a b p).1.count x + (splitFilter a b p).2.count x
          = a.count x)
    ∧ (∀ (selectors osel : List String) (q : String → Bool),
      (filterSelectors selectors (some osel) q).1 = selectors.filter q
      ∧ (filterSelectors selectors (some osel) q).2
          = some (selectors.filter fun x => !q x)
      ∧ (filterSelectors selectors (some osel) q).1.Sublist selectors
      ∧ ((filterSelectors selectors (some osel) q).2.getD []).Sublist selectors
      ∧ (∀ x, ((filterSelectors selectors (some osel) q).1).count x
            + ((filterSelectors selectors (some osel) q).2.getD []).count x
          = selectors.count x)
      ∧ ((filterSelectors selectors (some osel) q).1
          ++ (filterSelectors selectors (some osel) q).2.getD []).Perm selectors) := by
  constructor
  · intro α _ a b p
    exact ⟨splitFilterGo_fst a b p a 0, splitFilterGo_snd a b p a 0,
      splitFilterGo_sublist_fst a b p a 0, splitFilterGo_sublist_snd a b p a 0,
      fun x => splitFilterGo_count a b p a 0 x⟩
  · intro selectors osel q
    have h1 : (filterSelectors selectors (some osel) q).1 = selectors.filter q := by
      simp only [filterSelectors, splitFilter]
      rw [splitFilterGo_fst]
      exact enumFrom_filter_map_snd q selectors 0
    have h2 : (filterSelectors selectors (some osel) q).2
        = some (selectors.filter fun x => !q x) := by
      simp only [filterSelectors, splitFilter]
      rw [splitFilterGo_snd]
      exact congrArg some (enumFrom_filter_map_snd (fun x => !q x) selectors 0)
    have hcount : ∀ x, ((filterSelectors selectors (some osel) q).1).count x
        + ((filterSelectors selectors (some osel) q).2.getD []).count x
        = selectors.count x := by
      intro x
      simp only [filterSelectors]
      simpa using splitFilterGo_count selectors osel
        (fun x _ _ _ => q x) selectors 0 x
    refine ⟨h1, h2, ?_, ?_, hcount, ?_⟩
    · simp only [filterSelectors]
      exact splitFilterGo_sublist_fst selectors osel _ selectors 0
    · simp only [filterSelectors, Option.getD_some]
      exact splitFilterGo_sublist_snd selectors osel _ selectors 0
    · rw [List.perm_iff_count]
      intro x
      rw [List.count_append]
      exact hcount x

theorem mediaAllNodesList_append (a b : List MediaNode) :
    mediaAllNodesList (a ++ b) = mediaAllNodesList a ++ mediaAllNodesList b := by
  induction a with
  | nil => rfl
  | cons n ns ih => simp [mediaAllNodesList, ih]

theorem mem_mediaAllNodesList_reverse (l : List MediaNode) (n : MediaNode) :
    n ∈ mediaAllNodesList l.reverse ↔ n ∈ mediaAllNodesList l := by
  induction l with
  | nil => rfl
  | cons x xs ih =>
    simp only [List.reverse_cons, mediaAllNodesList_append, mediaAllNodesList,
      List.mem_append, List.append_nil, ih]
    tauto

theorem validateCheck_iff (n : MediaNode) :
    (nodeTypes.contains n.type && !(validateMediaType n == some true)) = false
      ↔ tokenAllowed n := by
  cases n with
  | mk t v ns =>
    simp only [tokenAllowed, pairAllowed, MediaNode.type, MediaNode.value,
      nodeTypes, validateMediaType, MediaNode.nodes]
    by_cases h1 : t = "media-type"
    · subst h1; simp [List.contains]
    · by_cases h2 : t = "keyword"
      · subst h2; simp [List.contains]
      · by_cases h3 : t = "media-feature"
        · subst h3; simp [List.contains]
        · simp [List.contains, h1, h2, h3]

theorem validateStack_iff (l : List MediaNode) :
    validateStack l = true ↔ ∀ n ∈ mediaAllNodesList l, tokenAllowed n := by
  induction l using validateStack.induct with
  | case1 => simp [validateStack, mediaAllNodesList]
  | case2 node rest hbad =>
    rw [validateStack]
    simp only [hbad, if_pos]
    have : ¬ tokenAllowed node := by
      intro hall
      have hf := (validateCheck_iff node).mpr hall
      rw [hf] at hbad
      exact Bool.false_ne_true hbad
    constructor
    · intro h; exact absurd h (by simp)
    · intro h
      exact absurd (h node (by
        cases node with
        | mk t v ns => simp [mediaAllNodesList, mediaAllNodes])) this
  | case3 node rest hbad ih =>
    rw [validateStack]
    have hbad' : (nodeTypes.contains node.type
        && !(validateMediaType node == some true)) = false := by
      revert hbad; cases nodeTypes.contains node.type
          && !(validateMediaType node == some true) <;> simp
    simp only [hbad', Bool.false_eq_true, if_neg, not_false_eq_true]
    rw [ih]
    have hallowed : tokenAllowed node := (validateCheck_iff node).mp hbad'
    cases node with
    | mk t v ns =>
      simp only [MediaNode.nodes, mediaAllNodesList_append, mediaAllNodesList,
        mediaAllNodes, List.mem_append, List.mem_cons]
      constructor
      · intro h m hm
        rcases hm with hm | hm
        · rcases hm with hm | hm
          · subst hm; exact hallowed
          · exact h m (Or.inl ((mem_mediaAllNodesList_reverse ns m).mpr hm))
        · exact h m (Or.inr hm)
      · intro h m hm
        rcases hm with hm | hm
        · exact h m (Or.inl (Or.inr ((mem_mediaAllNodesList_reverse ns m).mp hm)))
        · exact h m (Or.inr hm)

theorem validateMediaQuery_iff_allNodes (t : MediaNode) :
    validateMediaQuery t = true ↔ ∀ n ∈ mediaAllNodes t, tokenAllowed n := by
  have h := validateStack_iff [t]
  simpa [validateMediaQuery, mediaAllNodesList] using h

/-- C3: `validateMediaQuery` accepts a parsed query exactly when every
media-type token is in `MEDIA_TYPES` (`all`, `print`, `screen`,
`speech`), every keyword token in `MEDIA_KEYWORDS` (`and`, `not`, `,`),
and every media-feature token in `MEDIA_FEATURES` (the ten base feature
names and their `min-`/`max-` variants); any such token outside its
allow-list makes the whole query rejected. -/
theorem validateMediaQuery_allowlist (t : MediaNode) :
    validateMediaQuery t = true ↔ ∀ n ∈ mediaAllNodes t, tokenAllowed n :=
  validateMediaQuery_iff_allNodes t

theorem pairAllowed_of_not_relevant (ty v : String)
    (h : nodeTypes.contains ty = false) : pairAllowed (ty, v) := by
  refine ⟨fun h1 => ?_, fun h2 => ?_, fun h3 => ?_⟩ <;>
    (subst_vars; simp [nodeTypes, List.contains] at h)

theorem validateMediaQuery_iff_relevant (t : MediaNode) :
    validateMediaQuery t = true ↔ ∀ p ∈ relevantTokens t, pairAllowed p := by
  rw [validateMediaQuery_iff_allNodes]
  constructor
  · intro h p hp
    simp only [relevantTokens, List.mem_map, List.mem_filter] at hp
    obtain ⟨n, ⟨hn, _⟩, rfl⟩ := hp
    exact h n hn
  · intro h n hn
    by_cases hrel : nodeTypes.contains n.type = true
    · exact h (n.type, n.value) (by
        simp only [relevantTokens, List.mem_map, List.mem_filter]
        exact ⟨n, ⟨hn, hrel⟩, rfl⟩)
    · exact pairAllowed_of_not_relevant n.type n.value (by
        revert hrel; cases nodeTypes.contains n.type <;> simp)

/-- C9: the verdict of `validateMediaQuery` depends only on the
`(type, value)` pairs of the media-type, keyword and media-feature nodes
of the parsed tree: two trees whose relevant token collections agree get
the same verdict, so nodes of any other type — in particular the value
written after a media feature — are never inspected and cannot cause
rejection. -/
theorem validateMediaQuery_depends_only_on_relevant_tokens
    (t1 t2 : MediaNode)
    (h : ∀ p, p ∈ relevantTokens t1 ↔ p ∈ relevantTokens t2) :
    validateMediaQuery t1 = validateMediaQuery t2 := by
  have h1 := validateMediaQuery_iff_relevant t1
  have h2 := validateMediaQuery_iff_relevant t2
  have hiff : validateMediaQuery t1 = true ↔ validateMediaQuery t2 = true := by
    rw [h1, h2]
    constructor
    · intro hv p hp; exact hv p ((h p).mpr hp)
    · intro hv p hp; exact hv p ((h p).mp hp)
  cases hv1 : validateMediaQuery t1 <;> cases hv2 : validateMediaQuery t2 <;>
    simp_all

def mqValueTree (px : String) : MediaNode :=
  .mk "media-query" ("(min-width: " ++ px ++ ")")
    [.mk "media-feature-expression" ("(min-width: " ++ px ++ ")")
      [.mk "media-feature" "min-width" [], .mk "value" px []]]

/-- Witness for C9: two parsed `(min-width: …)` trees that differ only in
the value node's text (`100px` vs `9999px`) receive the same verdict. -/
theorem validateMediaQuery_depends_only_on_relevant_tokens_witness :
    validateMediaQuery (mqValueTree "100px")
      = validateMediaQuery (mqValueTree "9999px") :=
  validateMediaQuery_depends_only_on_relevant_tokens
    (mqValueTree "100px") (mqValueTree "9999px") (fun _ => Iff.rfl)

theorem storeResults_foldl (refs : List StyleRef) :
    ∀ (order : List Nat) (acc : Nat → Option String) (j : Nat),
      (order.foldl
        (fun slots i => fun k =>
          if k = i then (refs.get? i).map StyleRef.content else slots k) acc) j
        = if j ∈ order then (refs.get? j).map StyleRef.content else acc j := by
  intro order
  induction order with
  | nil => intro acc j; simp
  | cons i rest ih =>
    intro acc j
    rw [List.foldl_cons, ih]
    by_cases hj : j ∈ rest
    · simp [hj]
    · by_cases hji : j = i
      · subst hji; simp [hj]
      · simp [hj, hji]

theorem mem_insertByLat (lat : Nat → Nat) (i : Nat) :
    ∀ (l : List Nat) (x : Nat), x ∈ insertByLat lat i l ↔ x = i ∨ x ∈ l := by
  intro l
  induction l with
  | nil => intro x; simp [insertByLat]
  | cons j js ih =>
    intro x
    by_cases h : lat i < lat j
    · simp [insertByLat, h]
    · simp only [insertByLat, h, if_neg, not_false_eq_true, List.mem_cons, ih]
      tauto

theorem mem_completionOrder_foldl (lat : Nat → Nat) :
    ∀ (l : List Nat) (acc : List Nat) (x : Nat),
      x ∈ l.foldl (fun acc i => insertByLat lat i acc) acc ↔ x ∈ l ∨ x ∈ acc := by
  intro l
  induction l with
  | nil => intro acc x; simp
  | cons i rest ih =>
    intro acc x
    rw [List.foldl_cons, ih, mem_insertByLat]
    simp only [List.mem_cons]
    tauto

theorem mem_completionOrder (lat : Nat → Nat) (n x : Nat) :
    x ∈ completionOrder lat n ↔ x ∈ List.range n := by
  rw [completionOrder, mem_completionOrder_foldl]
  simp

/-- C5: in the modelled acquisition pipeline every retrieval is launched
at time 0 (none waits for an earlier one to finish before starting), and
the assembled inline results are strictly in original document order —
equal to the references' contents in reference order — for every
assignment of latencies, hence independent of the completion order. -/
theorem acquisition_assembles_in_document_order :
    ∀ (refs : List StyleRef) (lat : Nat → Nat),
      assembleInlined refs lat = refs.map (fun r => some r.content)
      ∧ (∀ lat2, assembleInlined refs lat = assembleInlined refs lat2)
      ∧ (∀ t ∈ launchTimes refs, t = 0) := by
  have main : ∀ (refs : List StyleRef) (lat : Nat → Nat),
      assembleInlined refs lat = refs.map (fun r => some r.content) := by
    intro refs lat
    apply List.ext_getElem
    · simp [assembleInlined]
    · intro j h1 h2
      have hj : j < refs.length := by simpa [assembleInlined] using h1
      simp only [assembleInlined, List.getElem_map, List.getElem_range]
      rw [storeResults, storeResults_foldl]
      have hmem : j ∈ completionOrder lat refs.length := by
        rw [mem_completionOrder]
        exact List.mem_range.mpr hj
      simp [hmem, List.getElem?_eq_getElem hj]
  intro refs lat
  refine ⟨main refs lat, fun lat2 => ?_, ?_⟩
  · rw [main refs lat, main refs lat2]
  · intro t ht
    have h := by simpa [launchTimes] using ht
    exact h.2

def demoRefs : List StyleRef :=
  [{ href := "/first.css", content := "h1{color:red}" },
   { href := "/second.css", content := "h2{color:blue}" },
   { href := "/third.css", content := "h3{color:green}" }]

/-- Latencies of the repository's variable-load-time test: the second
stylesheet resolves fastest, the first slowest. -/
def demoLat : Nat → Nat :=
  fun i => if i = 0 then 50 else if i = 1 then 10 else 30

/-- Witness for C5: with the test's latencies (50ms, 10ms, 30ms) the
assembled output is still in document order, and the (0-indexed) launch
times are all 0. -/
theorem acquisition_assembles_in_document_order_witness :
    assembleInlined demoRefs demoLat = demoRefs.map (fun r => some r.content)
    ∧ (0 : Nat) = 0 :=
  ⟨(acquisition_assembles_in_document_order demoRefs demoLat).1,
   (acquisition_assembles_in_document_order demoRefs demoLat).2.2 0 (by decide)⟩

/-- C8: for a stylesheet with an associated webpack asset and a
configured `minimumExternalSize` greater than zero, if the serialized
non-critical partition is shorter than the threshold then `pruneSource`
deletes the asset and returns `true` (fully inlined); otherwise the
non-critical partition is written over the asset's previous content (and
the base class's verdict is returned).  Other assets are never touched. -/
theorem pruneSource_threshold :
    ∀ (superResult : Bool) (assetName : String) (m : Nat)
      (sheetInverse : String) (assets : Assets),
      0 < m →
      (sheetInverse.length < m →
        (pruneSource superResult true assetName (some m) sheetInverse assets).1 assetName
            = none
        ∧ (pruneSource superResult true assetName (some m) sheetInverse assets).2 = true)
      ∧ (¬ sheetInverse.length < m →
        (pruneSource superResult true assetName (some m) sheetInverse assets).1 assetName
            = some sheetInverse
        ∧ (pruneSource superResult true assetName (some m) sheetInverse assets).2
            = superResult)
      ∧ (∀ k, k ≠ assetName →
        (pruneSource superResult true assetName (some m) sheetInverse assets).1 k
            = assets k) := by
  intro superResult assetName m sheetInverse assets hm
  have hm' : (m ≠ 0) = True := by simp; omega
  refine ⟨?_, ?_, ?_⟩
  · intro hlt
    simp [pruneSource, hm', hlt, deleteAsset]
  · intro hge
    simp [pruneSource, hm', hge, setAsset]
  · intro k hk
    by_cases hlt : sheetInverse.length < m
    · simp [pruneSource, hm', hlt, deleteAsset, hk]
    · simp [pruneSource, hm', hlt, setAsset, hk]

/-- Witness for C8: a 6-character non-critical sheet against a threshold
of 10 deletes the asset and reports full inlining. -/
theorem pruneSource_threshold_witness :
    (pruneSource false true "styles.css" (some 10) "a{b:c}"
        (fun _ => some "orig")).1 "styles.css" = none
    ∧ (pruneSource false true "styles.css" (some 10) "a{b:c}"
        (fun _ => some "orig")).2 = true :=
  (pruneSource_threshold false "styles.css" 10 "a{b:c}" (fun _ => some "orig")
    (by decide)).1 (by decide)

theorem runPredicate_snd (p : PredSpec) (pr : RulePair) :
    (runPredicate p pr).2 = p.verdict pr := by
  cases p.filterPred <;> simp [runPredicate]

theorem runPredicate_other_remove (p : PredSpec) (pr : RulePair) :
    ((runPredicate p pr).1.other).map RuleM.remove = (pr.other).map RuleM.remove := by
  cases hfp : p.filterPred with
  | none => simp [runPredicate, hfp]
  | some q =>
    cases ho : pr.other with
    | none => simp [runPredicate, hfp, runFilterSelectors, ho]
    | some o => simp [runPredicate, hfp, runFilterSelectors, ho]

theorem runPredicate_rule_remove (p : PredSpec) (pr : RulePair) :
    (runPredicate p pr).1.rule.remove = pr.rule.remove := by
  cases hfp : p.filterPred with
  | none => simp [runPredicate, hfp]
  | some q =>
    cases ho : pr.other with
    | none => simp [runPredicate, hfp, runFilterSelectors, ho]
    | some o => simp [runPredicate, hfp, runFilterSelectors, ho]

def prC6 : RulePair :=
  { rule := { selectors := [".used", ".unused"], remove := false, markedSelectors := none }
    other := some { selectors := [".used", ".unused"], remove := false
                    markedSelectors := none } }

def pTrivC6 : PredSpec := { filterPred := none, verdict := fun _ => none }

/-- Counterexample for C6: the claim says the rule's mirror twin is not
mutated by the marking, but `markOnly` unconditionally writes the twin's
`$$markedSelectors` annotation (css.js lines 97-99): after marking a rule
with a trivial predicate, the twin object differs from its pre-call
state. -/
theorem markOnly_mutates_twin_counterexample :
    (markOnly pTrivC6 prC6).1.other ≠ prC6.other := by
  decide

/-- C6 (amended): `markOnly(p)` is non-destructive: it never returns
`false` to the walk (so the rule is not detached, only annotated —
`$$remove` is set exactly when `p` returned `false`); the rule's own
selector list is restored to its pre-call value, any filtering performed
by `p` being stashed in `$$markedSelectors` instead; and the marking
leaves the twin's selector list and removal mark unchanged, its only
twin mutation being the `$$markedSelectors` annotation, set to the
twin's current selector list. -/
theorem markOnly_nondestructive_amended :
    ∀ (p : PredSpec) (pr : RulePair),
      (markOnly p pr).2 = none
      ∧ (p.verdict pr = some false → (markOnly p pr).1.rule.remove = true)
      ∧ (p.verdict pr ≠ some false →
          (markOnly p pr).1.rule.remove = pr.rule.remove)
      ∧ (markOnly p pr).1.rule.selectors = pr.rule.selectors
      ∧ (markOnly p pr).1.rule.markedSelectors
          = some (runPredicate p pr).1.rule.selectors
      ∧ (markOnly p pr).1.other
          = ((runPredicate p pr).1.other).map
              (fun o => { o with markedSelectors := some o.selectors })
      ∧ ((markOnly p pr).1.other).map RuleM.remove = (pr.other).map RuleM.remove := by
  intro p pr
  rcases hr : runPredicate p pr with ⟨⟨⟨sel1, rem1, ms1⟩, other1⟩, v⟩
  have hv : v = p.verdict pr := by
    have h2 := runPredicate_snd p pr
    rw [hr] at h2
    exact h2
  have hrem : Option.map RuleM.remove other1 = Option.map RuleM.remove pr.other := by
    have h2 := runPredicate_other_remove p pr
    rw [hr] at h2
    exact h2
  have hrrem : rem1 = pr.rule.remove := by
    have h2 := runPredicate_rule_remove p pr
    rw [hr] at h2
    exact h2
  refine ⟨?_, ?_, ?_, ?_, ?_, ?_, ?_⟩
  · cases other1 <;> simp [markOnly, hr]
  · intro hfalse
    have hb : (v == some false) = true := by simp [hv, hfalse]
    cases other1 <;> simp [markOnly, hr, hb]
  · intro hnf
    rw [← hv] at hnf
    have hb : (v == some false) = false := by
      revert hnf; cases v <;> simp_all
    cases other1 <;> simp [markOnly, hr, hb, hrrem]
  · cases hb : (v == some false) <;> cases other1 <;> simp [markOnly, hr, hb]
  · cases hb : (v == some false) <;> cases other1 <;> simp [markOnly, hr, hb]
  · cases hb : (v == some false) <;> cases other1 <;> simp [markOnly, hr, hb]
  · cases hb : (v == some false) <;> cases other1 <;>
      simp_all [markOnly, hr, hb]

def pRemoveC6 : PredSpec := { filterPred := none, verdict := fun _ => some false }

/-- Witness for C6 (amended): a predicate returning `false` marks the
concrete rule for removal while the wrapper still returns `undefined`. -/
theorem markOnly_nondestructive_amended_witness :
    (markOnly pRemoveC6 prC6).1.rule.remove = true
    ∧ (markOnly pRemoveC6 prC6).2 = none :=
  ⟨(markOnly_nondestructive_amended pRemoveC6 prC6).2.1 rfl,
   (markOnly_nondestructive_amended pRemoveC6 prC6).1⟩

/-- The identifying data of a node that the walks never change: its
type, at-rule name and selector list. -/
def Node.header (n : Node) : String × Option String × List String :=
  (n.type, n.name, n.selectors)

mutual

/-- The walk order as the spec words it: for a container node, recurse
into the children first, then evaluate the container itself — so a
node's header appears after the headers of all the nested rules the walk
descended into. -/
def specTrace : Node → List (String × Option String × List String)
  | .mk _ _ _ ns => specTraceList ns

def specTraceList : List Node → List (String × Option String × List String)
  | [] => []
  | c :: cs =>
    (if hasNestedRules c then specTrace c else []) ++ [c.header] ++ specTraceList cs

end

/-- An iterator that logs the header of every rule it is invoked on, in
invocation order, and decides keep/remove by `f`. -/
def loggingIterator (f : Node → Option Bool) :
    List (String × Option String × List String) → Node →
      List (String × Option String × List String) × Option Bool :=
  fun log r => (log ++ [r.header], f r)

theorem walkStyleRules_header {σ : Type} (it : σ → Node → σ × Option Bool)
    (s : σ) (n : Node) :
    (walkStyleRules it s n).2.header = n.header := by
  cases n with
  | mk t nm sel ns => rfl

mutual

theorem walkStyleRules_trace (f : Node → Option Bool) :
    ∀ (n : Node) (log : List (String × Option String × List String)),
      (walkStyleRules (loggingIterator f) log n).1 = log ++ specTrace n
  | .mk t nm sel ns, log => by
    have h := walkNodes_trace f ns log
    simpa [walkStyleRules, specTrace] using h

theorem walkNodes_trace (f : Node → Option Bool) :
    ∀ (cs : List Node) (log : List (String × Option String × List String)),
      (walkNodes (loggingIterator f) log cs).1 = log ++ specTraceList cs
  | [], log => by simp [walkNodes, specTraceList]
  | c :: cs, log => by
    cases h : hasNestedRules c with
    | true =>
      have hrec := walkStyleRules_trace f c log
      have hhdr := walkStyleRules_header (loggingIterator f) log c
      have hrest := walkNodes_trace f cs
          ((walkStyleRules (loggingIterator f) log c).1
            ++ [(walkStyleRules (loggingIterator f) log c).2.header])
      simp only [walkNodes, h, if_true, loggingIterator] at hrest ⊢
      rw [hrest, hrec, hhdr]
      simp [specTraceList, h]
    | false =>
      have hrest := walkNodes_trace f cs (log ++ [c.header])
      simp only [walkNodes, h, Bool.false_eq_true, if_false, loggingIterator]
        at hrest ⊢
      rw [hrest]
      simp [specTraceList, h]

end

/-- C10 (amended): calling `walkStyleRulesWithReverseMirror` with a
`null` second tree produces exactly the result of the single-tree
`walkStyleRules` on the first tree, with the same iterator state. -/
theorem walkMirror_null_equals_walkStyleRules :
    ∀ {σ : Type} (it : σ → Node → σ × Option Bool) (s : σ) (n : Node),
      walkStyleRulesWithReverseMirror it s n .jsNull
        = .ok ((walkStyleRules it s n).1, (walkStyleRules it s n).2, .jsNull) := by
  intro σ it s n
  cases n with
  | mk t nm sel ns => rfl

def t10 : Node := .mk "root" none [] [.mk "rule" none ["h1"] []]

def it10 : Unit → Node → Unit × Option Bool := fun _ _ => ((), some true)

/-- Counterexample for C10: with an absent (`undefined`) second tree the
css.js `node2 === null` check fails and the following `node2.nodes`
access throws a TypeError, so — unlike `walkStyleRules`, which returns a
walked tree on the same input — no resulting first tree is produced at
all. -/
theorem walkMirror_undefined_counterexample :
    walkStyleRulesWithReverseMirror it10 () t10 .jsUndefined = .error ()
    ∧ (walkStyleRules it10 () t10).2.nodes.length = 1 :=
  ⟨rfl, rfl⟩

theorem walkMirror_header {σ : Type} (it : σ → Node → σ × Option Bool) (s : σ) :
    ∀ (n : Node) (n2 : JsVal Node) (res : σ × Node × JsVal Node),
      walkStyleRulesWithReverseMirror it s n n2 = .ok res →
      res.2.1.header = n.header := by
  intro n n2 res h
  cases n2 with
  | jsNull =>
    cases n with
    | mk t nm sel ns =>
      simp only [walkStyleRulesWithReverseMirror, Except.ok.injEq] at h
      rw [← h]
      exact walkStyleRules_header it s (.mk t nm sel ns)
  | jsUndefined =>
    simp [walkStyleRulesWithReverseMirror] at h
  | val m =>
    cases n with
    | mk t nm sel ns =>
      cases m with
      | mk t2 nm2 sel2 ns2 =>
        cases hw : walkMirrorNodes it s ns ns2 0 with
        | error e => simp [walkStyleRulesWithReverseMirror, hw] at h
        | ok r =>
          simp only [walkStyleRulesWithReverseMirror, hw, Except.ok.injEq] at h
          rw [← h]
          rfl

mutual

theorem walkMirror_trace (f : Node → Option Bool) :
    ∀ (n : Node) (n2 : JsVal Node)
      (log : List (String × Option String × List String))
      (res : List (String × Option String × List String) × Node × JsVal Node),
      walkStyleRulesWithReverseMirror (loggingIterator f) log n n2 = .ok res →
      res.1 = log ++ specTrace n
  | n, .jsNull, log, res => by
    intro h
    cases n with
    | mk t nm sel ns =>
      simp only [walkStyleRulesWithReverseMirror, Except.ok.injEq] at h
      rw [← h]
      exact walkStyleRules_trace f (.mk t nm sel ns) log
  | n, .jsUndefined, log, res => by
    intro h
    simp [walkStyleRulesWithReverseMirror] at h
  | .mk t nm sel ns, .val (.mk t2 nm2 sel2 ns2), log, res => by
    intro h
    cases hw : walkMirrorNodes (loggingIterator f) log ns ns2 0 with
    | error e => simp [walkStyleRulesWithReverseMirror, hw] at h
    | ok r =>
      have htr := walkMirrorNodes_trace f ns ns2 0 log r hw
      simp only [walkStyleRulesWithReverseMirror, hw, Except.ok.injEq] at h
      rw [← h]
      simpa [specTrace] using htr

theorem walkMirrorNodes_trace (f : Node → Option Bool) :
    ∀ (cs rules2 : List Node) (i : Nat)
      (log : List (String × Option String × List String))
      (res : List (String × Option String × List String) × List Node × List Node),
      walkMirrorNodes (loggingIterator f) log cs rules2 i = .ok res →
      res.1 = log ++ specTraceList cs
  | [], rules2, i, log, res => by
    intro h
    simp only [walkMirrorNodes, Except.ok.injEq] at h
    rw [← h]
    simp [specTraceList]
  | c :: cs, rules2, i, log, res => by
    intro h
    cases hn : hasNestedRules c with
    | true =>
      cases hw : walkStyleRulesWithReverseMirror (loggingIterator f) log c
          (jsOfOption rules2[i]?) with
      | error e => simp [walkMirrorNodes, hn, hw] at h
      | ok r =>
        cases hrest : walkMirrorNodes (loggingIterator f)
            (r.1 ++ [r.2.1.header]) cs rules2 (i + 1) with
        | error e =>
          simp [walkMirrorNodes, hn, hw, loggingIterator, hrest] at h
        | ok r3 =>
          have htr := walkMirror_trace f c (jsOfOption rules2[i]?) log r hw
          have hhdr := walkMirror_header (loggingIterator f) log c
            (jsOfOption rules2[i]?) r hw
          have hrtr := walkMirrorNodes_trace f cs rules2 (i + 1)
            (r.1 ++ [r.2.1.header]) r3 hrest
          simp only [walkMirrorNodes, hn, if_true, loggingIterator, hw, hrest] at h
          split at h <;>
            (simp only [Except.ok.injEq] at h
             rw [← h]
             simp only [hrtr, htr, hhdr]
             simp [specTraceList, hn])
    | false =>
      cases hrest : walkMirrorNodes (loggingIterator f)
          (log ++ [c.header]) cs rules2 (i + 1) with
      | error e =>
        simp [walkMirrorNodes, hn, loggingIterator, hrest] at h
      | ok r3 =>
        have hrtr := walkMirrorNodes_trace f cs rules2 (i + 1)
          (log ++ [c.header]) r3 hrest
        simp only [walkMirrorNodes, hn, Bool.false_eq_true, if_false,
          loggingIterator, hrest] at h
        split at h <;>
          (simp only [Except.ok.injEq] at h
           rw [← h]
           simp only [hrtr]
           simp [specTraceList, hn])

end

/-- C7: both walks invoke the predicate in the order the spec describes:
for every container with nested rules the walk recurses into the
children first — the predicate has already been invoked on every nested
rule — and only then invokes the predicate on the container itself; the
invocation log of a walk equals `specTrace`, in which each container's
header follows the full trace of its recursed children. -/
theorem walk_invokes_children_before_container :
    (∀ (f : Node → Option Bool) (n : Node)
        (log : List (String × Option String × List String)),
      (walkStyleRules (loggingIterator f) log n).1 = log ++ specTrace n)
    ∧ (∀ (f : Node → Option Bool) (n m : Node)
        (log : List (String × Option String × List String))
        (res : List (String × Option String × List String) × Node × JsVal Node),
      walkStyleRulesWithReverseMirror (loggingIterator f) log n (.val m) = .ok res →
      res.1 = log ++ specTrace n) :=
  ⟨fun f n log => walkStyleRules_trace f n log,
   fun f n m log res h => walkMirror_trace f n (.val m) log res h⟩

def t7 : Node :=
  .mk "root" none []
    [.mk "atrule" (some "media") [] [.mk "rule" none ["h1"] []],
     .mk "rule" none ["p"] []]

def f7 : Node → Option Bool := fun _ => some true

/-- Witness for C7: on a concrete two-level tree, the mirror walk's
invocation log is the children-first trace — the nested `h1` rule is
logged before its `@media` container. -/
theorem walk_invokes_children_before_container_witness :
    ([("rule", (none : Option String), ["h1"]),
      ("atrule", some "media", ([] : List String)),
      ("rule", none, ["p"])] : List (String × Option String × List String))
      = [] ++ specTrace t7 :=
  walk_invokes_children_before_container.2 f7 t7 t7 []
    ([("rule", none, ["h1"]), ("atrule", some "media", []), ("rule", none, ["p"])],
      t7, .val (.mk "root" none [] [])) rfl

/-- The at-rule names the walks treat as atomic keyframes blocks:
exactly `keyframes` and `-webkit-keyframes` (css.js lines 166-167). -/
def isKeyframesName (nm : Option String) : Prop :=
  nm = some "keyframes" ∨ nm = some "-webkit-keyframes"

theorem hasNestedRules_keyframes (c : Node) (h : isKeyframesName c.name) :
    hasNestedRules c = false := by
  rcases h with h | h <;> simp [hasNestedRules, h]

theorem walkStyleRules_name {σ : Type} (it : σ → Node → σ × Option Bool)
    (s : σ) (n : Node) :
    (walkStyleRules it s n).2.name = n.name := by
  cases n with
  | mk t nm sel ns => rfl

theorem walkMirror_name {σ : Type} (it : σ → Node → σ × Option Bool) (s : σ)
    (n : Node) (n2 : JsVal Node) (res : σ × Node × JsVal Node)
    (h : walkStyleRulesWithReverseMirror it s n n2 = .ok res) :
    res.2.1.name = n.name := by
  have hh := walkMirror_header it s n n2 res h
  have h2 := congrArg (fun p : String × Option String × List String => p.2.1) hh
  simpa [Node.header] using h2

/-- The nodes of the second tree of a mirror walk result (none when the
second tree is `null`/`undefined`). -/
def allNodesJs : JsVal Node → List Node
  | .val m => allNodes m
  | _ => []

mutual

theorem walkStyleRules_keyframes_mem {σ : Type} (it : σ → Node → σ × Option Bool) :
    ∀ (n : Node) (s : σ) (x : Node),
      x ∈ allNodes (walkStyleRules it s n).2 → isKeyframesName x.name →
      x ∈ allNodes n
  | .mk t nm sel ns, s, x => by
    intro hx hkf
    simp only [walkStyleRules, allNodes] at hx ⊢
    exact walkNodes_keyframes_mem it ns s x hx hkf

theorem walkNodes_keyframes_mem {σ : Type} (it : σ → Node → σ × Option Bool) :
    ∀ (cs : List Node) (s : σ) (x : Node),
      x ∈ allNodesList (walkNodes it s cs).2 → isKeyframesName x.name →
      x ∈ allNodesList cs
  | [], s, x => by
    intro hx hkf
    simp [walkNodes, allNodesList] at hx
  | c :: cs, s, x => by
    intro hx hkf
    cases hn : hasNestedRules c with
    | true =>
      simp only [walkNodes, hn, if_true] at hx
      split at hx
      · simp only [allNodesList, List.mem_cons, List.mem_append] at hx
        rcases hx with rfl | hx | hx
        · have hname : (walkStyleRules it s c).2.name = c.name :=
            walkStyleRules_name it s c
          have hfalse : hasNestedRules c = false :=
            hasNestedRules_keyframes c (hname ▸ hkf)
          rw [hfalse] at hn
          exact absurd hn (by simp)
        · have hmem := walkStyleRules_keyframes_mem it c s x hx hkf
          simp only [allNodesList, List.mem_cons, List.mem_append]
          exact Or.inr (Or.inl hmem)
        · have hmem := walkNodes_keyframes_mem it cs
            (it (walkStyleRules it s c).1 (walkStyleRules it s c).2).1 x hx hkf
          simp only [allNodesList, List.mem_cons, List.mem_append]
          exact Or.inr (Or.inr hmem)
      · have hmem := walkNodes_keyframes_mem it cs
          (it (walkStyleRules it s c).1 (walkStyleRules it s c).2).1 x hx hkf
        simp only [allNodesList, List.mem_cons, List.mem_append]
        exact Or.inr (Or.inr hmem)
    | false =>
      simp only [walkNodes, hn, Bool.false_eq_true, if_false] at hx
      split at hx
      · simp only [allNodesList, List.mem_cons, List.mem_append] at hx
        rcases hx with rfl | hx | hx
        · simp [allNodesList]
        · simp only [allNodesList, List.mem_cons, List.mem_append]
          exact Or.inr (Or.inl hx)
        · have hmem := walkNodes_keyframes_mem it cs (it s c).1 x hx hkf
          simp only [allNodesList, List.mem_cons, List.mem_append]
          exact Or.inr (Or.inr hmem)
      · have hmem := walkNodes_keyframes_mem it cs (it s c).1 x hx hkf
        simp only [allNodesList, List.mem_cons, List.mem_append]
        exact Or.inr (Or.inr hmem)

end

mutual

theorem walkMirror_keyframes_mem {σ : Type} (it : σ → Node → σ × Option Bool) :
    ∀ (n : Node) (n2 : JsVal Node) (s : σ) (res : σ × Node × JsVal Node),
      walkStyleRulesWithReverseMirror it s n n2 = .ok res →
      ∀ x, (x ∈ allNodes res.2.1 ∨ x ∈ allNodesJs res.2.2) →
      isKeyframesName x.name → x ∈ allNodes n
  | n, .jsNull, s, res => by
    intro h x hx hkf
    cases n with
    | mk t nm sel ns =>
      simp only [walkStyleRulesWithReverseMirror, Except.ok.injEq] at h
      rw [← h] at hx
      rcases hx with hx | hx
      · exact walkStyleRules_keyframes_mem it (.mk t nm sel ns) s x hx hkf
      · simp [allNodesJs] at hx
  | n, .jsUndefined, s, res => by
    intro h
    simp [walkStyleRulesWithReverseMirror] at h
  | .mk t nm sel ns, .val (.mk t2 nm2 sel2 ns2), s, res => by
    intro h x hx hkf
    cases hw : walkMirrorNodes it s ns ns2 0 with
    | error e => simp [walkStyleRulesWithReverseMirror, hw] at h
    | ok r =>
      simp only [walkStyleRulesWithReverseMirror, hw, Except.ok.injEq] at h
      rw [← h] at hx
      simp only [allNodes, allNodesJs] at hx ⊢
      exact walkMirrorNodes_keyframes_mem it ns ns2 0 s r hw x hx hkf

theorem walkMirrorNodes_keyframes_mem {σ : Type} (it : σ → Node → σ × Option Bool) :
    ∀ (cs rules2 : List Node) (i : Nat) (s : σ) (res : σ × List Node × List Node),
      walkMirrorNodes it s cs rules2 i = .ok res →
      ∀ x, (x ∈ allNodesList res.2.1 ∨ x ∈ allNodesList res.2.2) →
      isKeyframesName x.name → x ∈ allNodesList cs
  | [], rules2, i, s, res => by
    intro h x hx hkf
    simp only [walkMirrorNodes, Except.ok.injEq] at h
    rw [← h] at hx
    simp [allNodesList] at hx
  | c :: cs, rules2, i, s, res => by
    intro h x hx hkf
    cases hn : hasNestedRules c with
    | true =>
      cases hw : walkStyleRulesWithReverseMirror it s c (jsOfOption rules2[i]?) with
      | error e => simp [walkMirrorNodes, hn, hw] at h
      | ok r =>
        cases hrest : walkMirrorNodes it (it r.1 r.2.1).1 cs rules2 (i + 1) with
        | error e => simp [walkMirrorNodes, hn, hw, hrest] at h
        | ok r3 =>
          have hname := walkMirror_name it s c (jsOfOption rules2[i]?) r hw
          simp only [walkMirrorNodes, hn, if_true, hw, hrest] at h
          have hxcases : x = r.2.1 ∨ x ∈ allNodes r.2.1
              ∨ (x ∈ allNodesList r3.2.1 ∨ x ∈ allNodesList r3.2.2) := by
            split at h <;>
              (simp only [Except.ok.injEq] at h
               rw [← h] at hx
               simp only [allNodesList, List.mem_cons, List.mem_append] at hx
               tauto)
          rcases hxcases with rfl | hx2 | hx2
          · have hfalse : hasNestedRules c = false :=
              hasNestedRules_keyframes c (hname ▸ hkf)
            rw [hfalse] at hn
            exact absurd hn (by simp)
          · have hmem := walkMirror_keyframes_mem it c (jsOfOption rules2[i]?)
              s r hw x (Or.inl hx2) hkf
            simp only [allNodesList, List.mem_cons, List.mem_append]
            exact Or.inr (Or.inl hmem)
          · have hmem := walkMirrorNodes_keyframes_mem it cs rules2 (i + 1)
              (it r.1 r.2.1).1 r3 hrest x hx2 hkf
            simp only [allNodesList, List.mem_cons, List.mem_append]
            exact Or.inr (Or.inr hmem)
    | false =>
      cases hrest : walkMirrorNodes it (it s c).1 cs rules2 (i + 1) with
      | error e => simp [walkMirrorNodes, hn, hrest] at h
      | ok r3 =>
        simp only [walkMirrorNodes, hn, Bool.false_eq_true, if_false, hrest] at h
        have hxcases : x = c ∨ x ∈ allNodes c
            ∨ (x ∈ allNodesList r3.2.1 ∨ x ∈ allNodesList r3.2.2) := by
          split at h <;>
            (simp only [Except.ok.injEq] at h
             rw [← h] at hx
             simp only [allNodesList, List.mem_cons, List.mem_append] at hx
             tauto)
        rcases hxcases with rfl | hx2 | hx2
        · simp [allNodesList]
        · simp only [allNodesList, List.mem_cons, List.mem_append]
          exact Or.inr (Or.inl hx2)
        · have hmem := walkMirrorNodes_keyframes_mem it cs rules2 (i + 1)
            (it s c).1 r3 hrest x hx2 hkf
          simp only [allNodesList, List.mem_cons, List.mem_append]
          exact Or.inr (Or.inr hmem)

end

def mozStep1 : Node := .mk "rule" none ["0%"] []

def mozStep2 : Node := .mk "rule" none ["100%"] []

def mozTree : Node :=
  .mk "root" none [] [.mk "atrule" (some "-moz-keyframes") [] [mozStep1, mozStep2]]

def itDropZero : Unit → Node → Unit × Option Bool :=
  fun _ r => ((), some (!(r.selectors == ["0%"])))

/-- Counterexample for C4: `@-moz-keyframes` is a vendor-prefixed
keyframes variant, but `hasNestedRules` only excludes `keyframes` and
`-webkit-keyframes`, so the walk recurses into it: after a walk whose
predicate drops the `0%` step, the output still contains the
`-moz-keyframes` block but with only one of its two steps — a proper
subset, so the block was not kept whole or removed whole. -/
theorem walk_keyframes_counterexample :
    ((walkStyleRules itDropZero () mozTree).2).nodes.map
        (fun c => (c.name, c.nodes.length)) = [(some "-moz-keyframes", 1)]
    ∧ mozTree.nodes.map (fun c => (c.name, c.nodes.length))
        = [(some "-moz-keyframes", 2)] :=
  ⟨rfl, rfl⟩

/-- C4 (amended): the walks never recurse into an at-rule named
`keyframes` or `-webkit-keyframes` — the only keyframes names the code
excludes (`hasNestedRules` is false on them, other vendor prefixes such
as `-moz-keyframes` are recursed into) — and such a block is kept whole
or removed whole: any node with one of these names found anywhere in a
walk's output partition (either partition, for the mirror walk) is an
unchanged node of the input tree. -/
theorem walk_keyframes_atomic_amended :
    (∀ {σ : Type} (it : σ → Node → σ × Option Bool) (s : σ) (n x : Node),
      x ∈ allNodes (walkStyleRules it s n).2 → isKeyframesName x.name →
      x ∈ allNodes n)
    ∧ (∀ {σ : Type} (it : σ → Node → σ × Option Bool) (s : σ) (n : Node)
        (n2 : JsVal Node) (res : σ × Node × JsVal Node),
      walkStyleRulesWithReverseMirror it s n n2 = .ok res →
      ∀ x, (x ∈ allNodes res.2.1 ∨ x ∈ allNodesJs res.2.2) →
      isKeyframesName x.name → x ∈ allNodes n)
    ∧ (∀ c : Node, isKeyframesName c.name → hasNestedRules c = false) :=
  ⟨fun it s n x hx hkf => walkStyleRules_keyframes_mem it n s x hx hkf,
   fun it s n n2 res h x hx hkf => walkMirror_keyframes_mem it n n2 s res h x hx hkf,
   fun c h => hasNestedRules_keyframes c h⟩

/-- Witness for C4 (amended): a concrete `@keyframes` block with a step
child is not recursed into. -/
theorem walk_keyframes_atomic_amended_witness :
    hasNestedRules (.mk "atrule" (some "keyframes") [] [.mk "rule" none ["0%"] []])
      = false :=
  walk_keyframes_atomic_amended.2.2
    (.mk "atrule" (some "keyframes") [] [.mk "rule" none ["0%"] []]) (Or.inl rfl)

end Beasties
